import Mathlib

/-!
Shallow embedding of the data-cleaning and aggregation engine of
`src/app.py` (an "Intelligent Data Cleaning" application built on pandas).

The table is modelled column-major: a column has a name, a dtype tag
(pandas attaches the element dtype to the column, not to single cells) and a
list of optional cells (`none` models a pandas missing value, NaN/NaT).
Numeric cells are exact rationals (the idealization of the float arithmetic
the source performs), text cells are strings, temporal cells are integers
encoding a calendar date.

Fallible operations return `Option`: `none` models an uncaught Python
exception aborting the run (e.g. `mode()[0]` on an empty mode series) or a
displayed "unavailable" placeholder, as indicated at each definition.
-/

namespace IDC

/- Core marks rational arithmetic irreducible; concrete evaluation in
counterexamples and witnesses needs it unfolded. -/
attribute [local semireducible] Rat.add Rat.sub Rat.mul

inductive Value where
  | q (x : ℚ)
  | s (x : String)
  | d (x : Int)
deriving DecidableEq

/-- Pandas column dtypes relevant to the source: `np.number`, `object`
(text), and `datetime64` (produced by `pd.to_datetime`). -/
inductive Dtype where
  | num
  | obj
  | dt
deriving DecidableEq

structure Col where
  name : String
  dtype : Dtype
  cells : List (Option Value)
deriving DecidableEq

abbrev Table := List Col

/-- The imputation method tags of the cleaning log
(`"Median (due to skew)"`, `"Mean (normal distribution)"`, `"Mode (Most Frequent)"`). -/
inductive Method where
  | medianSkew
  | meanNormal
  | mode
deriving DecidableEq

/-- One record of the cleaning log: the `st.write` line emitted per imputed
column (column name, method and fill value).  `fill = none` models a NaN
fill value (the `fillna` of an all-missing numeric column). -/
structure Action where
  col : String
  method : Method
  fill : Option Value
deriving DecidableEq

/-! ### Substring matching (Python `'date' in col`) -/

def startsWithL : List Char → List Char → Bool
  | [], _ => true
  | _ :: _, [] => false
  | a :: as, b :: bs => a == b && startsWithL as bs

def hasSubL (n : List Char) : List Char → Bool
  | [] => startsWithL n []
  | b :: bs => startsWithL n (b :: bs) || hasSubL n bs

/-- `strHas hay needle` models Python's `needle in hay` on strings. -/
def strHas (hay needle : String) : Bool :=
  hasSubL needle.toList hay.toList

/-- `'date' in col or 'time' in col` (line 76 of `src/app.py`). -/
def isDateName (s : String) : Bool :=
  strHas s "date" || strHas s "time"

/-! ### Column statistics -/

def sumQ (xs : List ℚ) : ℚ := xs.foldr (· + ·) 0

/-- Exact rational division, written through `Rat.divInt` (it equals `· / ·`
on `ℚ`, see `divQ_eq`; this form evaluates on concrete inputs). -/
def divQ (a b : ℚ) : ℚ := Rat.divInt (a.num * b.den) (a.den * b.num)

def meanOf (xs : List ℚ) : ℚ := divQ (sumQ xs) ((xs.length : ℚ))

/-- Sum of squared deviations from the mean (pandas' `m2` in `nanskew`). -/
def m2Q (xs : List ℚ) : ℚ := sumQ (xs.map fun x => (x - meanOf xs) ^ 2)

/-- Sum of cubed deviations from the mean (pandas' `m3` in `nanskew`). -/
def m3Q (xs : List ℚ) : ℚ := sumQ (xs.map fun x => (x - meanOf xs) ^ 3)

/-- The branch condition `df[col].skew() > 1` of line 57, in exact
arithmetic.  Pandas' `skew` is `G1 = n·√(n-1)/(n-2) · m3/m2^1.5`; it is NaN
when fewer than 3 values are present and 0 when `m2 = 0`, and `NaN > 1` is
false in Python, so those cases take the mean branch.  For `n ≥ 3`,
`m2 > 0` the strict comparison `G1 > 1` is equivalent to
`0 < m3 ∧ n²(n-1)·m3² > (n-2)²·m2³` (square both sides; proved below in
`skewGtOneB_iff`). -/
def skewGtOneB (xs : List ℚ) : Bool :=
  if xs.length < 3 then false
  else if m2Q xs = 0 then false
  else
    decide (0 < m3Q xs ∧
      ((xs.length : ℚ)) ^ 2 * ((xs.length : ℚ) - 1) * (m3Q xs) ^ 2 >
      ((xs.length : ℚ) - 2) ^ 2 * (m2Q xs) ^ 3)

/-- `df[col].skew() > 1` stated with real square roots: the sample skewness
`G1` strictly exceeds the fixed threshold `1`.  (NaN for `n < 3` and `0` for
`m2 = 0` never exceed 1, hence the first two conjuncts.) -/
def SkewGtOne (xs : List ℚ) : Prop :=
  2 < xs.length ∧ m2Q xs ≠ 0 ∧
    1 < ((xs.length : ℝ) * Real.sqrt ((xs.length : ℝ) - 1) * ((m3Q xs : ℚ) : ℝ)) /
        (((xs.length : ℝ) - 2) * Real.sqrt (((m2Q xs : ℚ) : ℝ) ^ 3))

/-- The sample skewness is defined and exactly equal to the threshold `1.0`. -/
def SkewEqOne (xs : List ℚ) : Prop :=
  2 < xs.length ∧ m2Q xs ≠ 0 ∧
    ((xs.length : ℝ) * Real.sqrt ((xs.length : ℝ) - 1) * ((m3Q xs : ℚ) : ℝ)) /
        (((xs.length : ℝ) - 2) * Real.sqrt (((m2Q xs : ℚ) : ℝ) ^ 3)) = 1

/-- `df[col].mean()` over present values; `none` models the NaN mean of an
empty column. -/
def meanQ (xs : List ℚ) : Option ℚ :=
  if xs = [] then none else some (meanOf xs)

def sortedQ (xs : List ℚ) : List ℚ := List.insertionSort (· ≤ ·) xs

/-- `df[col].median()` over present values: middle of the sorted values,
averaging the two middles for even length; `none` models NaN on empty. -/
def medianQ (xs : List ℚ) : Option ℚ :=
  if (sortedQ xs).length = 0 then none
  else if (sortedQ xs).length % 2 = 1 then
    some ((sortedQ xs).getD ((sortedQ xs).length / 2) 0)
  else
    some (divQ ((sortedQ xs).getD ((sortedQ xs).length / 2 - 1) 0 +
      (sortedQ xs).getD ((sortedQ xs).length / 2) 0) 2)

/-! ### Cell extraction and fill -/

def toQv : Value → Option ℚ
  | .q x => some x
  | _ => none

def toSv : Value → Option String
  | .s x => some x
  | _ => none

def toDv : Value → Option Int
  | .d x => some x
  | _ => none

/-- The present numeric values of a column, in row order. -/
def qVals (c : Col) : List ℚ := c.cells.filterMap (fun o => o.bind toQv)

/-- The present text values of a column, in row order. -/
def sVals (c : Col) : List String := c.cells.filterMap (fun o => o.bind toSv)

/-- `df[col].isnull().sum()`. -/
def nullCount (c : Col) : Nat := c.cells.countP (fun o => o.isNone)

def hasPresent (c : Col) : Bool := c.cells.any (fun o => o.isSome)

/-- `fillna(fill_val)`: replace every missing cell by `w`; filling with NaN
(`none`) is a no-op, as in pandas. -/
def fillCells (v : Option Value) (cs : List (Option Value)) : List (Option Value) :=
  match v with
  | none => cs
  | some w => cs.map (fun o => match o with | none => some w | some x => some x)

def fillCol (c : Col) (v : Option Value) : Col :=
  ⟨c.name, c.dtype, fillCells v c.cells⟩

/-! ### The auto-cleaning engine (lines 50–80 of `src/app.py`) -/

/-- Body of the numeric loop (lines 54–65): for a column with missing
values, fill with the median when `skew() > 1`, otherwise with the mean,
and log one action. -/
def numClean (c : Col) : Col × List Action :=
  if 0 < nullCount c then
    if skewGtOneB (qVals c) then
      (fillCol c ((medianQ (qVals c)).map Value.q),
       [⟨c.name, Method.medianSkew, (medianQ (qVals c)).map Value.q⟩])
    else
      (fillCol c ((meanQ (qVals c)).map Value.q),
       [⟨c.name, Method.meanNormal, (meanQ (qVals c)).map Value.q⟩])
  else (c, [])

/-- The numeric loop visits exactly the `select_dtypes(np.number)` columns. -/
def numStep (c : Col) : Col × List Action :=
  if c.dtype = Dtype.num then numClean c else (c, [])

def numPass (t : Table) : Table × List Action :=
  (t.map (fun c => (numStep c).1), t.foldr (fun c r => (numStep c).2 ++ r) [])

/-- Code-point comparison of strings: the lexicographic order in which
numpy sorts an object array of Python strings (compare characters by code
point; on exhaustion the shorter string sorts first). -/
def lexLE : List Char → List Char → Bool
  | [], _ => true
  | _ :: _, [] => false
  | a :: as, b :: bs => if a.toNat = b.toNat then lexLE as bs else decide (a.toNat < b.toNat)

def strLE (a b : String) : Bool := lexLE a.toList b.toList

def insertStr (x : String) : List String → List String
  | [] => [x]
  | y :: ys => if strLE x y then x :: y :: ys else y :: insertStr x ys

/-- Ascending insertion sort of strings by `strLE`. -/
def sortStrs : List String → List String
  | [] => []
  | x :: xs => insertStr x (sortStrs xs)

/-- `maxCount xs` is the highest number of occurrences of any value. -/
def maxCount (xs : List String) : Nat :=
  (xs.map (fun x => xs.count x)).foldr max 0

/-- `df[col].mode()`: the values of maximal frequency, sorted ascending
(pandas sorts the mode series). -/
def modes (xs : List String) : List String :=
  sortStrs ((xs.dedup).filter (fun x => xs.count x == maxCount xs))

/-- `df[col].mode()[0]`; `none` models the `IndexError` raised when the
mode series is empty (no present value at all). -/
def modeHead (xs : List String) : Option String := (modes xs).head?

/-- Body of the categorical loop (lines 69–73): fill missing values with
`mode()[0]`.  `none` propagates the `IndexError` on an all-missing column. -/
def catCleanCol (c : Col) : Option (Col × List Action) :=
  if 0 < nullCount c then
    match modeHead (sVals c) with
    | none => none
    | some m =>
        some (fillCol c (some (Value.s m)), [⟨c.name, Method.mode, some (Value.s m)⟩])
  else some (c, [])

/-- The categorical loop visits exactly the `select_dtypes(['object'])` columns. -/
def catStep (c : Col) : Option (Col × List Action) :=
  if c.dtype = Dtype.obj then catCleanCol c else some (c, [])

def catPass : Table → Option (Table × List Action)
  | [] => some ([], [])
  | c :: cs =>
    match catStep c, catPass cs with
    | some ca, some r => some (ca.1 :: r.1, ca.2 ++ r.2)
    | _, _ => none

/-! ### Date detection and sort (lines 76–80) -/

def digitsToNat (cs : List Char) : Nat :=
  cs.foldl (fun a c => a * 10 + (c.toNat - 48)) 0

def allDigits (cs : List Char) : Bool := cs.all (fun c => c.isDigit)

/-- Split a character list at `'-'` separators. -/
def splitDash : List Char → List (List Char)
  | [] => [[]]
  | c :: rest =>
    match splitDash rest with
    | [] => [[]]
    | g :: gs => if c = '-' then [] :: g :: gs else (c :: g) :: gs

/-- `pd.to_datetime(_, errors='coerce')` on an ISO `YYYY-MM-DD` string:
a date is encoded as `(y*12 + (m-1))*31 + (d-1)`, which is monotone in
`(y, m, d)` and from which the calendar month is recovered by division by
31; malformed strings coerce to `none` (NaT). -/
def parseISO (s : String) : Option Int :=
  match splitDash s.toList with
  | [y, m, d] =>
    if allDigits y && allDigits m && allDigits d then
      let yn := digitsToNat y
      let mn := digitsToNat m
      let dn := digitsToNat d
      if 1 ≤ mn ∧ mn ≤ 12 ∧ 1 ≤ dn ∧ dn ≤ 31 then
        some (((yn * 12 + (mn - 1)) * 31 + (dn - 1) : Nat) : Int)
      else none
    else none
  | _ => none

/-- Permissive conversion of one cell: datetimes pass through, strings are
parsed, numbers are interpreted as raw timestamps. -/
def parseCell : Value → Option Int
  | .d x => some x
  | .s str => parseISO str
  | .q x => some x.floor

/-- `df[c] = pd.to_datetime(df[c], errors='coerce')`: the column becomes a
datetime column; unparseable or missing cells become NaT (`none`). -/
def convertDate (c : Col) : Col :=
  ⟨c.name, Dtype.dt, c.cells.map (fun o => (o.bind parseCell).map Value.d)⟩

def dateKeys (c : Col) : List (Option Int) :=
  c.cells.map (fun o => o.bind toDv)

/-- `sort_values` key order: NaT sorts last (`na_position='last'`). -/
def keyLE : Option Int → Option Int → Bool
  | none, none => true
  | none, some _ => false
  | some _, none => true
  | some a, some b => a ≤ b

def insertRow (p : Nat × Option Int) : List (Nat × Option Int) → List (Nat × Option Int)
  | [] => [p]
  | q :: qs => if keyLE p.2 q.2 then p :: q :: qs else q :: insertRow p qs

def sortRows : List (Nat × Option Int) → List (Nat × Option Int)
  | [] => []
  | p :: ps => insertRow p (sortRows ps)

/-- The row permutation produced by `df.sort_values(by=key_column)`. -/
def sortPerm (keys : List (Option Int)) : List Nat :=
  (sortRows ((List.range keys.length).zip keys)).map Prod.fst

/-- Reorder every column of the table by the sorted row permutation. -/
def applySort (keys : List (Option Int)) (t : Table) : Table :=
  t.map (fun c => ⟨c.name, c.dtype, (sortPerm keys).map (fun i => c.cells.getD i none)⟩)

def dateFirst (t : Table) : Option Col := t.find? (fun c => isDateName c.name)

/-- `date_cols = [col for col in df.columns if 'date' in col or 'time' in col]`. -/
def dateCols (t : Table) : List String := (t.map Col.name).filter isDateName

/-- Lines 76–80: convert the first date-named column and sort the whole
table by it ascending; no-op when no column name matches. -/
def datePass (t : Table) : Table :=
  match dateFirst t with
  | none => t
  | some c0 =>
    applySort (dateKeys (convertDate c0))
      (t.map (fun c => if c.name = c0.name then convertDate c else c))

/-- The full auto-cleaning engine: numeric imputation, then categorical
imputation, then date detection/sort; `none` models an uncaught exception
aborting the run. -/
def cleanTable (t : Table) : Option (Table × List Action) :=
  match catPass (numPass t).1 with
  | none => none
  | some r => some (datePass r.1, (numPass t).2 ++ r.2)

/-! ### Role inference (lines 98–100) -/

def salesFind (t : Table) : Option Col :=
  t.find? (fun c => strHas c.name "sales" || strHas c.name "revenue" || strHas c.name "amount")

def profitFind (t : Table) : Option Col :=
  t.find? (fun c => strHas c.name "profit")

def catFind (t : Table) : Option Col :=
  t.find? (fun c => decide (c.dtype = Dtype.obj) &&
    (strHas c.name "category" || strHas c.name "segment" || strHas c.name "region"))

/-! ### Aggregations (lines 104–127) -/

def monthOf (d : Int) : Int := d / 31

/-- The (month, revenue) rows that carry a date; rows with NaT dates are
dropped by `resample`. -/
def mRows (keys : List (Option Int)) (vals : List (Option ℚ)) : List (Int × Option ℚ) :=
  (keys.zip vals).filterMap (fun p => p.1.map (fun d => (monthOf d, p.2)))

/-- Revenue total of one month bucket (`sum` skips missing values; the sum
of an empty bucket is 0). -/
def monthTotalR (rows : List (Int × Option ℚ)) (m : Int) : ℚ :=
  sumQ ((rows.filter (fun r => r.1 = m)).filterMap Prod.snd)

def minL (x : Int) (xs : List Int) : Int := xs.foldr min x

def maxL (x : Int) (xs : List Int) : Int := xs.foldr max x

def monthsLo (rows : List (Int × Option ℚ)) : Int :=
  match rows with
  | [] => 0
  | r :: rs => minL r.1 (rs.map Prod.fst)

def monthsHi (rows : List (Int × Option ℚ)) : Int :=
  match rows with
  | [] => 0
  | r :: rs => maxL r.1 (rs.map Prod.fst)

def intRangeAux (a : Int) : Nat → List Int
  | 0 => []
  | n + 1 => a :: intRangeAux (a + 1) n

/-- The consecutive integers from `a` to `b` inclusive (empty when `b < a`). -/
def intRange (a b : Int) : List Int := intRangeAux a (b + 1 - a).toNat

/-- `df.set_index(date)[sales].resample('M').sum()`: one bucket for every
calendar month from the earliest to the latest dated row, each with the
revenue total of its rows (0 for months with no rows — `resample` produces
the full regular grid and does not omit empty bins). -/
def resampleM (keys : List (Option Int)) (vals : List (Option ℚ)) : List (Int × ℚ) :=
  let rows := mRows keys vals
  if rows = [] then []
  else (intRange (monthsLo rows) (monthsHi rows)).map (fun m => (m, monthTotalR rows m))

def trendVals (c : Col) : List (Option ℚ) := c.cells.map (fun o => o.bind toQv)

/-- The Market-Trends tab (lines 104–117): `none` models the
`st.info(...)` "could not detect" placeholder shown when the date or sales
role is unset. -/
def trendView (t : Table) : Option (List (Int × ℚ)) :=
  match dateFirst t, salesFind t with
  | some dc, some sc => some (resampleM (dateKeys dc) (trendVals sc))
  | _, _ => none

/-- `(category, profit)` pairs of rows whose category value is present
(`groupby` drops missing keys). -/
def groupPairs (cc pc : Col) : List (String × Option ℚ) :=
  (cc.cells.zip pc.cells).filterMap
    (fun p => (p.1.bind toSv).map (fun k => (k, p.2.bind toQv)))

/-- `df.groupby(category)[profit].sum()`: one summed entry per distinct
category value. -/
def groupSums (cc pc : Col) : List (String × ℚ) :=
  ((groupPairs cc pc).map Prod.fst).dedup.map
    (fun k => (k, sumQ (((groupPairs cc pc).filter (fun p => p.1 = k)).filterMap Prod.snd)))

def profLE (p q : String × ℚ) : Prop := p.2 ≤ q.2

instance : DecidableRel profLE := fun p q => inferInstanceAs (Decidable (p.2 ≤ q.2))

instance : IsTotal (String × ℚ) profLE := ⟨fun p q => le_total p.2 q.2⟩

instance : IsTrans (String × ℚ) profLE := ⟨fun _ _ _ h1 h2 => le_trans h1 h2⟩

/-- The Profit-and-Loss tab (lines 121–134):
`df.groupby(category_col)[profit_col].sum().sort_values()`; `none` models
the `st.info(...)` placeholder when the profit or category role is unset. -/
def profitView (t : Table) : Option (List (String × ℚ)) :=
  match profitFind t, catFind t with
  | some pc, some cc => some (List.insertionSort profLE (groupSums cc pc))
  | _, _ => none

/-! ### Well-formedness -/

/-- A cell is coherent with its column's dtype (pandas maintains this). -/
def cellOk (dty : Dtype) (o : Option Value) : Bool :=
  match o with
  | none => true
  | some v =>
    match dty, v with
    | .num, .q _ => true
    | .obj, .s _ => true
    | .dt, .d _ => true
    | _, _ => false

/-- A rectangular table with `n` rows whose cells match their column dtypes. -/
def Wf (n : Nat) (t : Table) : Bool :=
  t.all (fun c => (c.cells.length == n) && c.cells.all (cellOk c.dtype))

/-- The spec's own description of the tie-break for the mode fill: the
first value, in column (row) order, whose frequency is maximal.  Stated
from the spec's words, for comparison against `modeHead` (the code's
`mode()[0]`). -/
def specFirstMode (xs : List String) : Option String :=
  xs.find? (fun x => xs.count x == maxCount xs)

/-! ### Concrete tables used by counterexamples and witnesses -/

/-- A numeric column all of whose cells are missing. -/
def tblAllNaN : Table := [⟨"x", Dtype.num, [none]⟩]

/-- A fully clean (zero nulls) table whose only column is date-named and
holds out-of-order dates. -/
def tblCleanDate : Table :=
  [⟨"date", Dtype.obj, [some (Value.s "2023-02-01"), some (Value.s "2023-01-01")]⟩]

/-- A categorical column whose present values `"b"`, `"a"` are tied for
most frequent, with `"b"` encountered first. -/
def colTie : Col := ⟨"city", Dtype.obj, [some (Value.s "b"), some (Value.s "a"), none]⟩

/-- Rows in 2023-01 and 2023-03 only: calendar month 2023-02 (encoded
`24277`) contains zero rows. -/
def tblGap : Table :=
  [⟨"order_date", Dtype.dt, [some (Value.d 752560), some (Value.d 752618)]⟩,
   ⟨"sales", Dtype.num, [some (Value.q 100), some (Value.q 200)]⟩]

/-- A categorical (object-dtype) column all of whose cells are missing. -/
def tblAllMissingCat : Table := [⟨"city", Dtype.obj, [none, none]⟩]

/-- A two-column table with category and profit roles present. -/
def tblProfit : Table :=
  [⟨"region", Dtype.obj, [some (Value.s "E"), some (Value.s "W")]⟩,
   ⟨"profit", Dtype.num, [some (Value.q 5), some (Value.q (-3))]⟩]

/-- A two-column clean table used by several witnesses. -/
def tblSmall : Table :=
  [⟨"price", Dtype.num, [some (Value.q 1), none]⟩,
   ⟨"city", Dtype.obj, [some (Value.s "a"), none]⟩]

/-! ### Helper lemmas -/

theorem fillCells_length (v : Option Value) (cs : List (Option Value)) :
    (fillCells v cs).length = cs.length := by
  cases v with
  | none => rfl
  | some w => simp [fillCells]

theorem fillCells_some_none_notMem (w : Value) (cs : List (Option Value)) :
    ∀ o ∈ fillCells (some w) cs, o.isNone = false := by
  intro o ho
  simp only [fillCells, List.mem_map] at ho
  obtain ⟨p, _, hp⟩ := ho
  cases p <;> simp [← hp]

theorem nullCount_fillCol_some (c : Col) (w : Value) :
    nullCount (fillCol c (some w)) = 0 := by
  unfold nullCount fillCol
  rw [List.countP_eq_zero]
  intro o ho
  have := fillCells_some_none_notMem w c.cells o ho
  simp [this]

theorem fillCol_name (c : Col) (v : Option Value) : (fillCol c v).name = c.name := rfl

theorem fillCol_dtype (c : Col) (v : Option Value) : (fillCol c v).dtype = c.dtype := rfl

theorem fillCol_none (c : Col) : fillCol c none = c := rfl

theorem numStep_shape (c : Col) : ∃ v a, numStep c = (fillCol c v, a) := by
  unfold numStep numClean
  split
  · split
    · split
      · exact ⟨_, _, rfl⟩
      · exact ⟨_, _, rfl⟩
    · exact ⟨none, [], rfl⟩
  · exact ⟨none, [], rfl⟩

theorem numStep_fst_name (c : Col) : (numStep c).1.name = c.name := by
  obtain ⟨v, a, h⟩ := numStep_shape c
  rw [h]
  rfl

theorem numStep_fst_dtype (c : Col) : (numStep c).1.dtype = c.dtype := by
  obtain ⟨v, a, h⟩ := numStep_shape c
  rw [h]
  rfl

theorem numStep_fst_length (c : Col) : (numStep c).1.cells.length = c.cells.length := by
  obtain ⟨v, a, h⟩ := numStep_shape c
  rw [h]
  exact fillCells_length v c.cells

theorem numStep_not_num (c : Col) (h : c.dtype ≠ Dtype.num) : numStep c = (c, []) := by
  unfold numStep
  rw [if_neg h]

theorem catStep_shape (c : Col) (c' : Col) (a : List Action)
    (h : catStep c = some (c', a)) : ∃ v, c' = fillCol c v := by
  unfold catStep catCleanCol at h
  split at h
  · split at h
    · split at h
      · exact absurd h (by simp)
      · exact ⟨_, by injection h with h1; injection h1 with h2 _; exact h2.symm⟩
    · exact ⟨none, by injection h with h1; injection h1 with h2 _; exact h2.symm⟩
  · exact ⟨none, by injection h with h1; injection h1 with h2 _; exact h2.symm⟩

theorem catStep_not_obj (c : Col) (h : c.dtype ≠ Dtype.obj) : catStep c = some (c, []) := by
  unfold catStep
  rw [if_neg h]

theorem catStep_null (c c' : Col) (a : List Action)
    (hobj : c.dtype = Dtype.obj) (h : catStep c = some (c', a)) : nullCount c' = 0 := by
  unfold catStep at h
  rw [if_pos hobj] at h
  unfold catCleanCol at h
  split at h
  · split at h
    · exact absurd h (by simp)
    · injection h with h1
      injection h1 with h2 _
      rw [← h2]
      exact nullCount_fillCol_some c _
  next hn =>
    injection h with h1
    injection h1 with h2 _
    rw [← h2]
    omega

theorem catPass_mem (ts : Table) :
    ∀ t2 la, catPass ts = some (t2, la) →
      ∀ c2 ∈ t2, ∃ c1 ∈ ts, ∃ a, catStep c1 = some (c2, a) := by
  induction ts with
  | nil =>
    intro t2 la h c2 hc2
    unfold catPass at h
    injection h with h1
    injection h1 with h2 _
    rw [← h2] at hc2
    exact absurd hc2 (List.not_mem_nil c2)
  | cons c cs ih =>
    intro t2 la h c2 hc2
    unfold catPass at h
    cases hcs : catStep c with
    | none => rw [hcs] at h; exact absurd h (by simp)
    | some ca =>
      cases hrest : catPass cs with
      | none => rw [hcs, hrest] at h; exact absurd h (by simp)
      | some r =>
        rw [hcs, hrest] at h
        injection h with h1
        injection h1 with h2 h3
        rw [← h2] at hc2
        rcases List.mem_cons.mp hc2 with h4 | h4
        · exact ⟨c, List.mem_cons_self c cs, ca.2, by rw [hcs, h4]⟩
        · obtain ⟨c1, hm, a, ha⟩ := ih r.1 r.2 (by rw [hrest]) c2 h4
          exact ⟨c1, List.mem_cons_of_mem c hm, a, ha⟩

/-! ### Permutation lemmas for the `sort_values` model -/

theorem insertRow_perm (p : Nat × Option Int) (l : List (Nat × Option Int)) :
    List.Perm (insertRow p l) (p :: l) := by
  induction l with
  | nil => exact List.Perm.refl _
  | cons q qs ih =>
    unfold insertRow
    split
    · exact List.Perm.refl _
    · exact (ih.cons q).trans (List.Perm.swap p q qs)

theorem sortRows_perm (l : List (Nat × Option Int)) : List.Perm (sortRows l) l := by
  induction l with
  | nil => exact List.Perm.refl _
  | cons p ps ih => exact (insertRow_perm p (sortRows ps)).trans (ih.cons p)

theorem sortPerm_perm (keys : List (Option Int)) :
    List.Perm (sortPerm keys) (List.range keys.length) := by
  have h1 := (sortRows_perm ((List.range keys.length).zip keys)).map Prod.fst
  rwa [List.map_fst_zip _ _ (by rw [List.length_range])] at h1

theorem getD_range_map (l : List (Option Value)) :
    (List.range l.length).map (fun i => l.getD i none) = l := by
  induction l with
  | nil => rfl
  | cons a as ih =>
    rw [List.length_cons, List.range_succ_eq_map, List.map_cons, List.map_map]
    have : ((fun i => (a :: as).getD i none) ∘ Nat.succ) = fun i => as.getD i none := by
      funext i
      rfl
    rw [this, ih]
    rfl

theorem applySort_cells_perm (keys : List (Option Int)) (c : Col)
    (h : c.cells.length = keys.length) :
    List.Perm ((sortPerm keys).map (fun i => c.cells.getD i none)) c.cells := by
  have h1 := (sortPerm_perm keys).map (fun i => c.cells.getD i none)
  refine h1.trans ?_
  rw [← h, getD_range_map]

theorem sortPerm_length (keys : List (Option Int)) :
    (sortPerm keys).length = keys.length := by
  rw [(sortPerm_perm keys).length_eq, List.length_range]

theorem divQ_eq (a b : ℚ) : divQ a b = a / b := by
  unfold divQ
  rw [Rat.divInt_eq_div]
  rcases eq_or_ne b 0 with hb | hb
  · simp [hb]
  · have hdA : ((a.den : ℚ)) ≠ 0 := Nat.cast_ne_zero.mpr a.den_nz
    have hdB : ((b.den : ℚ)) ≠ 0 := Nat.cast_ne_zero.mpr b.den_nz
    have hbn : ((b.num : ℚ)) ≠ 0 := Int.cast_ne_zero.mpr (Rat.num_ne_zero.mpr hb)
    have haa : ((a.num : ℚ)) = a * (a.den : ℚ) := by
      have h := Rat.num_div_den a
      rw [div_eq_iff hdA] at h
      exact h
    have hbb : ((b.num : ℚ)) = b * (b.den : ℚ) := by
      have h := Rat.num_div_den b
      rw [div_eq_iff hdB] at h
      exact h
    push_cast
    rw [div_eq_div_iff (mul_ne_zero hdA hbn) hb, haa, hbb]
    ring

/-- The no-null branch of the numeric loop is skipped. -/
theorem numStep_clean (c : Col) (h0 : nullCount c = 0) : numStep c = (c, []) := by
  by_cases hd : c.dtype = Dtype.num
  · unfold numStep numClean
    rw [if_pos hd, h0]
    simp
  · exact numStep_not_num c hd

theorem numPass_clean (t : Table) (h : ∀ c ∈ t, nullCount c = 0) : numPass t = (t, []) := by
  induction t with
  | nil => rfl
  | cons c cs ih =>
    have hc := numStep_clean c (h c (List.mem_cons_self c cs))
    have ih' := ih (fun d hd => h d (List.mem_cons_of_mem c hd))
    unfold numPass at ih' ⊢
    rw [List.map_cons, List.foldr_cons, hc]
    injection ih' with h1 h2
    rw [h1, h2]
    simp

/-- The no-null branch of the categorical loop is skipped. -/
theorem catStep_clean (c : Col) (h0 : nullCount c = 0) : catStep c = some (c, []) := by
  by_cases hd : c.dtype = Dtype.obj
  · unfold catStep catCleanCol
    rw [if_pos hd, h0]
    simp
  · exact catStep_not_obj c hd

theorem catPass_clean (t : Table) (h : ∀ c ∈ t, nullCount c = 0) :
    catPass t = some (t, []) := by
  induction t with
  | nil => rfl
  | cons c cs ih =>
    have hc := catStep_clean c (h c (List.mem_cons_self c cs))
    have ih' := ih (fun d hd => h d (List.mem_cons_of_mem c hd))
    unfold catPass
    rw [hc, ih']
    rfl

theorem datePass_nodate (t : Table) (h : ∀ c ∈ t, isDateName c.name = false) :
    datePass t = t := by
  have hdf : dateFirst t = none := by
    unfold dateFirst
    rw [List.find?_eq_none]
    intro c hc
    simp [h c hc]
  unfold datePass
  rw [hdf]

/-! ### Claims settled by concrete computation -/

/-- C10: on a table containing a categorical (object-dtype) column all of
whose cells are missing, the cleaning pass aborts with an out-of-bounds
error at `df[col].mode()[0]` (the mode of an empty value set is empty), so
`cleanTable` yields no result. -/
theorem c10_all_missing_mode_crash :
    cleanTable tblAllMissingCat = none ∧ modes [] = [] := by
  decide

/-- C1 is falsified as stated: a numeric column all of whose cells are
missing still has a missing cell after the cleaning pass (its mean is NaN
and `fillna(NaN)` fills nothing), even though the run succeeds and logs a
mean action. -/
theorem c1_counterexample :
    Wf 1 tblAllNaN = true ∧
    cleanTable tblAllNaN = some (tblAllNaN, [⟨"x", Method.meanNormal, none⟩]) ∧
    nullCount ⟨"x", Dtype.num, [none]⟩ = 1 := by
  decide

/-- C2 is falsified as stated: a table with zero missing cells whose only
column is date-named comes out of the full cleaning pass with an empty log
but a changed table (the date column is re-typed to datetime and the rows
re-sorted ascending). -/
theorem c2_counterexample :
    nullCount ⟨"date", Dtype.obj,
      [some (Value.s "2023-02-01"), some (Value.s "2023-01-01")]⟩ = 0 ∧
    cleanTable tblCleanDate =
      some ([⟨"date", Dtype.dt, [some (Value.d 752556), some (Value.d 752587)]⟩], []) ∧
    ([⟨"date", Dtype.dt, [some (Value.d 752556), some (Value.d 752587)]⟩] : Table)
      ≠ tblCleanDate := by
  decide

/-- C3 is falsified as stated: in the column `["b", "a", missing]` the
values `"b"` and `"a"` are tied for most frequent with `"b"` encountered
first, yet the code fills with `"a"` — `mode()` returns the tied values
sorted, so `mode()[0]` is the smallest, not the first-encountered. -/
theorem c3_counterexample :
    catStep colTie =
      some (⟨"city", Dtype.obj,
              [some (Value.s "b"), some (Value.s "a"), some (Value.s "a")]⟩,
            [⟨"city", Method.mode, some (Value.s "a")⟩]) ∧
    specFirstMode (sVals colTie) = some "b" ∧ ("a" : String) ≠ "b" := by
  decide

/-- C4 is falsified as stated: with rows only in 2023-01 (month code 24276)
and 2023-03 (24278), the trend series contains a zero-filled entry
`(24277, 0)` for the empty month 2023-02 instead of omitting it. -/
theorem c4_counterexample :
    trendView tblGap = some [(24276, 100), (24277, 0), (24278, 200)] ∧
    (mRows (dateKeys ⟨"order_date", Dtype.dt, [some (Value.d 752560), some (Value.d 752618)]⟩)
        (trendVals ⟨"sales", Dtype.num, [some (Value.q 100), some (Value.q 200)]⟩)).countP
      (fun r => r.1 = 24277) = 0 := by
  decide

/-! ### C9: graceful degradation when roles are unset -/

/-- C9: when no column name contains "date" or "time", the time role stays
unset (`date_cols` is empty) and the trend tab shows its placeholder rather
than raising; in general the trend and profit tabs degrade to their
placeholder whenever a required role is unset. -/
theorem c9_unavailable (t : Table) (h : ∀ c ∈ t, isDateName c.name = false) :
    dateCols t = [] ∧ trendView t = none ∧
    (∀ u : Table, dateFirst u = none ∨ salesFind u = none → trendView u = none) ∧
    (∀ u : Table, profitFind u = none ∨ catFind u = none → profitView u = none) := by
  have hdf : dateFirst t = none := by
    unfold dateFirst
    rw [List.find?_eq_none]
    intro c hc
    simp [h c hc]
  refine ⟨?_, ?_, ?_, ?_⟩
  · unfold dateCols
    rw [List.filter_eq_nil_iff]
    intro s hs
    obtain ⟨c, hc, rfl⟩ := List.mem_map.mp hs
    simp [h c hc]
  · unfold trendView
    rw [hdf]
  · intro u hu
    cases hd : dateFirst u with
    | none => simp [trendView, hd]
    | some dc =>
      cases hs : salesFind u with
      | none => simp [trendView, hd, hs]
      | some sc =>
        rcases hu with h1 | h1
        · rw [hd] at h1; exact absurd h1 (by simp)
        · rw [hs] at h1; exact absurd h1 (by simp)
  · intro u hu
    cases hp : profitFind u with
    | none => simp [profitView, hp]
    | some pc =>
      cases hc : catFind u with
      | none => simp [profitView, hp, hc]
      | some cc =>
        rcases hu with h1 | h1
        · rw [hp] at h1; exact absurd h1 (by simp)
        · rw [hc] at h1; exact absurd h1 (by simp)

/-! ### Order lemmas for the string sort behind `mode()` -/

theorem lexLE_refl (l : List Char) : lexLE l l = true := by
  induction l with
  | nil => rfl
  | cons a as ih => simp [lexLE, ih]

theorem lexLE_total (l₁ l₂ : List Char) : lexLE l₁ l₂ = true ∨ lexLE l₂ l₁ = true := by
  induction l₁ generalizing l₂ with
  | nil => exact Or.inl rfl
  | cons a as ih =>
    cases l₂ with
    | nil => exact Or.inr rfl
    | cons b bs =>
      simp only [lexLE]
      by_cases hab : a.toNat = b.toNat
      · rw [if_pos hab, if_pos hab.symm]
        exact ih bs
      · have hba : ¬ b.toNat = a.toNat := fun he => hab he.symm
        rw [if_neg hab, if_neg hba]
        rcases Nat.lt_or_ge a.toNat b.toNat with h | h
        · exact Or.inl (decide_eq_true h)
        · exact Or.inr (decide_eq_true (by omega))

theorem lexLE_trans (l₁ l₂ l₃ : List Char) (h1 : lexLE l₁ l₂ = true)
    (h2 : lexLE l₂ l₃ = true) : lexLE l₁ l₃ = true := by
  induction l₁ generalizing l₂ l₃ with
  | nil => rfl
  | cons a as ih =>
    cases l₂ with
    | nil => exact absurd h1 (by simp [lexLE])
    | cons b bs =>
      cases l₃ with
      | nil => exact absurd h2 (by simp [lexLE])
      | cons c cs =>
        simp only [lexLE] at h1 h2 ⊢
        by_cases hab : a.toNat = b.toNat
        · rw [if_pos hab] at h1
          by_cases hbc : b.toNat = c.toNat
          · rw [if_pos hbc] at h2
            rw [if_pos (hab.trans hbc)]
            exact ih bs cs h1 h2
          · rw [if_neg hbc] at h2
            have h2' : b.toNat < c.toNat := of_decide_eq_true h2
            rw [if_neg (show ¬ a.toNat = c.toNat by omega)]
            exact decide_eq_true (by omega)
        · rw [if_neg hab] at h1
          have h1' : a.toNat < b.toNat := of_decide_eq_true h1
          by_cases hbc : b.toNat = c.toNat
          · rw [if_neg (show ¬ a.toNat = c.toNat by omega)]
            exact decide_eq_true (by omega)
          · rw [if_neg hbc] at h2
            have h2' : b.toNat < c.toNat := of_decide_eq_true h2
            rw [if_neg (show ¬ a.toNat = c.toNat by omega)]
            exact decide_eq_true (by omega)

theorem strLE_refl (s : String) : strLE s s = true := lexLE_refl s.toList

theorem strLE_total (s t : String) : strLE s t = true ∨ strLE t s = true :=
  lexLE_total s.toList t.toList

theorem strLE_trans (s t u : String) (h1 : strLE s t = true) (h2 : strLE t u = true) :
    strLE s u = true :=
  lexLE_trans s.toList t.toList u.toList h1 h2

theorem insertStr_perm (x : String) (l : List String) :
    List.Perm (insertStr x l) (x :: l) := by
  induction l with
  | nil => exact List.Perm.refl _
  | cons y ys ih =>
    unfold insertStr
    split
    · exact List.Perm.refl _
    · exact (ih.cons y).trans (List.Perm.swap x y ys)

theorem sortStrs_perm (l : List String) : List.Perm (sortStrs l) l := by
  induction l with
  | nil => exact List.Perm.refl _
  | cons x xs ih => exact (insertStr_perm x (sortStrs xs)).trans (ih.cons x)

/-- The head of the insertion sort is a `strLE`-lower bound of the input. -/
theorem sortStrs_head_least (l : List String) (m : String)
    (hm : (sortStrs l).head? = some m) : ∀ y ∈ l, strLE m y = true := by
  induction l generalizing m with
  | nil => exact absurd hm (by simp [sortStrs])
  | cons x xs ih =>
    intro y hy
    unfold sortStrs at hm
    cases hs : sortStrs xs with
    | nil =>
      have hxs : xs = [] := by
        have hl := (sortStrs_perm xs).length_eq
        rw [hs] at hl
        exact List.eq_nil_of_length_eq_zero hl.symm
      rw [hs] at hm
      unfold insertStr at hm
      rw [List.head?_cons] at hm
      injection hm with hm
      subst hm
      subst hxs
      rcases List.mem_cons.mp hy with h1 | h1
      · subst h1
        exact strLE_refl y
      · exact absurd h1 (List.not_mem_nil y)
    | cons b bs =>
      rw [hs] at hm
      unfold insertStr at hm
      by_cases hxb : strLE x b = true
      · rw [if_pos hxb, List.head?_cons] at hm
        injection hm with hm
        subst hm
        rcases List.mem_cons.mp hy with h1 | h1
        · subst h1
          exact strLE_refl y
        · exact strLE_trans _ _ _ hxb (ih b (by rw [hs]; rfl) y h1)
      · rw [if_neg hxb, List.head?_cons] at hm
        injection hm with hm
        subst hm
        rcases List.mem_cons.mp hy with h1 | h1
        · subst h1
          rcases strLE_total y b with h2 | h2
          · exact absurd h2 hxb
          · exact h2
        · exact ih b (by rw [hs]; rfl) y h1

theorem foldr_max_mem (l : List Nat) (h : l ≠ []) : l.foldr max 0 ∈ l := by
  induction l with
  | nil => exact absurd rfl h
  | cons x xs ih =>
    cases xs with
    | nil => simp
    | cons z zs =>
      rw [List.foldr_cons]
      rcases max_choice x ((z :: zs).foldr max 0) with h1 | h1
      · rw [h1]; exact List.mem_cons_self _ _
      · rw [h1]; exact List.mem_cons_of_mem x (ih (by simp))

theorem maxCount_attained (xs : List String) (h : xs ≠ []) :
    ∃ y ∈ xs, xs.count y = maxCount xs := by
  have hmem : maxCount xs ∈ xs.map (fun x => xs.count x) :=
    foldr_max_mem _ (by simp [h])
  obtain ⟨y, hy, hcount⟩ := List.mem_map.mp hmem
  exact ⟨y, hy, hcount⟩

/-! ### C3: the mode tie-break -/

/-- C3 (amended): on a categorical column with missing cells and at least
one present value, the fill value is the `mode()[0]` value: a most-frequent
present value that is smallest in code-point lexicographic order among all
most-frequent values (pandas sorts the tied modes), not the
first-encountered tied value. -/
theorem c3_amended (c : Col) (hobj : c.dtype = Dtype.obj) (hnull : 0 < nullCount c)
    (hne : sVals c ≠ []) :
    ∃ m, modeHead (sVals c) = some m ∧
      catStep c = some (fillCol c (some (Value.s m)),
        [⟨c.name, Method.mode, some (Value.s m)⟩]) ∧
      m ∈ sVals c ∧ (sVals c).count m = maxCount (sVals c) ∧
      (∀ y ∈ sVals c, (sVals c).count y = maxCount (sVals c) → strLE m y = true) := by
  obtain ⟨y0, hy0, hc0⟩ := maxCount_attained (sVals c) hne
  have hy0f : y0 ∈ (sVals c).dedup.filter
      (fun x => (sVals c).count x == maxCount (sVals c)) :=
    List.mem_filter.mpr ⟨List.mem_dedup.mpr hy0, by simp [hc0]⟩
  have hmodes : List.Perm (modes (sVals c))
      ((sVals c).dedup.filter (fun x => (sVals c).count x == maxCount (sVals c))) :=
    sortStrs_perm _
  have hne' : modes (sVals c) ≠ [] := by
    intro hnil
    rw [hnil] at hmodes
    exact absurd (hmodes.mem_iff.mpr hy0f) (List.not_mem_nil y0)
  cases hm : modes (sVals c) with
  | nil => exact absurd hm hne'
  | cons m rest =>
    have hmhead : modeHead (sVals c) = some m := by
      unfold modeHead
      rw [hm]
      rfl
    have hmf : m ∈ (sVals c).dedup.filter
        (fun x => (sVals c).count x == maxCount (sVals c)) :=
      hmodes.mem_iff.mp (hm ▸ List.mem_cons_self m rest)
    have hmd := List.mem_filter.mp hmf
    refine ⟨m, hmhead, ?_, List.mem_dedup.mp hmd.1, by simpa using hmd.2, ?_⟩
    · unfold catStep catCleanCol
      rw [if_pos hobj, if_pos hnull, hmhead]
    · intro y hy hcy
      have hyf : y ∈ (sVals c).dedup.filter
          (fun x => (sVals c).count x == maxCount (sVals c)) :=
        List.mem_filter.mpr ⟨List.mem_dedup.mpr hy, by simp [hcy]⟩
      exact sortStrs_head_least _ m hmhead y hyf

/-- Witness for C3 at the tied column `["b", "a", missing]`. -/
theorem c3_amended_witness :
    ∃ m, modeHead (sVals colTie) = some m ∧
      catStep colTie = some (fillCol colTie (some (Value.s m)),
        [⟨colTie.name, Method.mode, some (Value.s m)⟩]) ∧
      m ∈ sVals colTie ∧ (sVals colTie).count m = maxCount (sVals colTie) ∧
      (∀ y ∈ sVals colTie, (sVals colTie).count y = maxCount (sVals colTie) →
        strLE m y = true) :=
  c3_amended colTie rfl (by decide) (by decide)

/-! ### C2: idempotence on an already-clean table -/

/-- C2 (amended): on a table with zero missing cells the cleaning pass
succeeds with an empty cleaning log and changes the table only through the
date-detection step; when additionally no column name contains "date" or
"time", the table is returned completely unchanged (same values, same
dtypes, same row order). -/
theorem c2_amended (t : Table) (h0 : ∀ c ∈ t, nullCount c = 0) :
    cleanTable t = some (datePass t, []) ∧
    ((∀ c ∈ t, isDateName c.name = false) → datePass t = t) := by
  constructor
  · unfold cleanTable
    rw [numPass_clean t h0]
    simp [catPass_clean t h0]
  · intro h1
    exact datePass_nodate t h1

/-- Witness for C2 at a concrete clean table with no date-named column. -/
theorem c2_amended_witness :
    cleanTable [(⟨"price", Dtype.num, [some (Value.q 1)]⟩ : Col)] =
      some (datePass [⟨"price", Dtype.num, [some (Value.q 1)]⟩], []) ∧
    ((∀ c ∈ [(⟨"price", Dtype.num, [some (Value.q 1)]⟩ : Col)], isDateName c.name = false) →
      datePass [⟨"price", Dtype.num, [some (Value.q 1)]⟩] =
        [⟨"price", Dtype.num, [some (Value.q 1)]⟩]) :=
  c2_amended [⟨"price", Dtype.num, [some (Value.q 1)]⟩] (by decide)

/-! ### C7: numeric imputation with fewer than two present values -/

theorem skewGtOneB_short (xs : List ℚ) (h : xs.length < 3) : skewGtOneB xs = false := by
  unfold skewGtOneB
  rw [if_pos h]

/-- C7: a numeric column with missing cells but fewer than two present
values is still imputed without error: its skewness cannot exceed the
threshold, so the mean branch is taken and a mean-normal action logged. -/
theorem c7_insufficient_data (c : Col) (hnum : c.dtype = Dtype.num)
    (hnull : 0 < nullCount c) (hfew : (qVals c).length < 2) :
    ¬ SkewGtOne (qVals c) ∧
    numStep c = (fillCol c ((meanQ (qVals c)).map Value.q),
      [⟨c.name, Method.meanNormal, (meanQ (qVals c)).map Value.q⟩]) := by
  have hb : skewGtOneB (qVals c) = false := skewGtOneB_short _ (by omega)
  constructor
  · intro hS
    have := hS.1
    omega
  · unfold numStep numClean
    rw [if_pos hnum, if_pos hnull, hb]
    simp

/-- Witness for C7 at a column with one present and one missing value. -/
theorem c7_insufficient_data_witness :
    ¬ SkewGtOne (qVals ⟨"qty", Dtype.num, [some (Value.q 5), none]⟩) ∧
    numStep ⟨"qty", Dtype.num, [some (Value.q 5), none]⟩ =
      (fillCol ⟨"qty", Dtype.num, [some (Value.q 5), none]⟩
        ((meanQ (qVals ⟨"qty", Dtype.num, [some (Value.q 5), none]⟩)).map Value.q),
       [⟨"qty", Method.meanNormal,
         (meanQ (qVals ⟨"qty", Dtype.num, [some (Value.q 5), none]⟩)).map Value.q⟩]) :=
  c7_insufficient_data _ rfl (by decide) (by decide)

/-- Witness for C9 at a concrete table with no date-named column. -/
theorem c9_unavailable_witness :
    dateCols [(⟨"price", Dtype.num, [some (Value.q 1)]⟩ : Col)] = [] ∧
    trendView [(⟨"price", Dtype.num, [some (Value.q 1)]⟩ : Col)] = none ∧
    (∀ u : Table, dateFirst u = none ∨ salesFind u = none → trendView u = none) ∧
    (∀ u : Table, profitFind u = none ∨ catFind u = none → profitView u = none) :=
  c9_unavailable [⟨"price", Dtype.num, [some (Value.q 1)]⟩] (by decide)

end IDC

namespace IDC

attribute [local semireducible] Rat.add Rat.sub Rat.mul

/-! ### C6: categoryProfitability ordering -/

/-- C6: with profit and category roles set, the Profit-and-Loss view is the
per-category profit sums sorted ascending, so consecutive summed profits
are non-decreasing. -/
theorem c6_profit_sorted (t : Table) (pc cc : Col)
    (hp : profitFind t = some pc) (hc : catFind t = some cc) :
    ∃ l, profitView t = some l ∧
      List.Chain' (fun p q : String × ℚ => p.2 ≤ q.2) l := by
  refine ⟨List.insertionSort profLE (groupSums cc pc), ?_, ?_⟩
  · unfold profitView
    rw [hp, hc]
  · exact (List.sorted_insertionSort profLE (groupSums cc pc)).chain'

/-- Witness for C6 at a two-category table with one loss and one gain. -/
theorem c6_profit_sorted_witness :
    ∃ l, profitView tblProfit = some l ∧
      List.Chain' (fun p q : String × ℚ => p.2 ≤ q.2) l :=
  c6_profit_sorted tblProfit
    ⟨"profit", Dtype.num, [some (Value.q 5), some (Value.q (-3))]⟩
    ⟨"region", Dtype.obj, [some (Value.s "E"), some (Value.s "W")]⟩
    (by decide) (by decide)

/-! ### C8: row count invariance -/

theorem catStep_length (c c' : Col) (a : List Action)
    (h : catStep c = some (c', a)) : c'.cells.length = c.cells.length := by
  obtain ⟨v, hv⟩ := catStep_shape c c' a h
  rw [hv]
  exact fillCells_length v c.cells

theorem wf_lengths (n : Nat) (t : Table) (hwf : Wf n t = true) :
    ∀ c ∈ t, c.cells.length = n := by
  intro c hc
  have h1 := (List.all_eq_true.mp hwf) c hc
  have h2 := (Bool.and_eq_true _ _).mp h1
  exact beq_iff_eq.mp h2.1

theorem wf_cells (n : Nat) (t : Table) (hwf : Wf n t = true) :
    ∀ c ∈ t, c.cells.all (cellOk c.dtype) = true := by
  intro c hc
  have h1 := (List.all_eq_true.mp hwf) c hc
  exact ((Bool.and_eq_true _ _).mp h1).2

/-- C8: a successful cleaning run preserves the row count of every column —
imputation fills in place and the temporal sort only permutes rows. -/
theorem c8_row_count (n : Nat) (t t' : Table) (la : List Action)
    (hwf : Wf n t = true) (h : cleanTable t = some (t', la)) :
    ∀ c' ∈ t', c'.cells.length = n := by
  have hlen : ∀ c ∈ t, c.cells.length = n := wf_lengths n t hwf
  have hlen1 : ∀ c1 ∈ (numPass t).1, c1.cells.length = n := by
    intro c1 hc1
    obtain ⟨c, hc, rfl⟩ := List.mem_map.mp hc1
    rw [numStep_fst_length]
    exact hlen c hc
  unfold cleanTable at h
  cases hcat : catPass (numPass t).1 with
  | none =>
    rw [hcat] at h
    exact absurd h (by simp)
  | some r =>
    rw [hcat] at h
    injection h with h
    injection h with h1 h2
    have hlen2 : ∀ c2 ∈ r.1, c2.cells.length = n := by
      intro c2 hc2
      obtain ⟨c1, hc1, a, ha⟩ := catPass_mem _ r.1 r.2 (by rw [hcat]) c2 hc2
      rw [catStep_length c1 c2 a ha]
      exact hlen1 c1 hc1
    rw [← h1]
    intro c' hc'
    unfold datePass at hc'
    cases hdf : dateFirst r.1 with
    | none =>
      rw [hdf] at hc'
      exact hlen2 c' hc'
    | some c0 =>
      rw [hdf] at hc'
      obtain ⟨cm, hcm, rfl⟩ := List.mem_map.mp hc'
      have hc0 : c0 ∈ r.1 := List.mem_of_find?_eq_some hdf
      show (List.map _ (sortPerm _)).length = n
      rw [List.length_map, sortPerm_length]
      unfold dateKeys convertDate
      rw [List.length_map, List.length_map]
      exact hlen2 c0 hc0

/-- Witness for C8 at a two-column, two-row table with one missing cell in
each column. -/
theorem c8_row_count_witness :
    (⟨"price", Dtype.num, [some (Value.q 1), some (Value.q 1)]⟩ : Col).cells.length = 2 ∧
    (⟨"city", Dtype.obj, [some (Value.s "a"), some (Value.s "a")]⟩ : Col).cells.length = 2 :=
  ⟨c8_row_count 2 tblSmall
    [⟨"price", Dtype.num, [some (Value.q 1), some (Value.q 1)]⟩,
     ⟨"city", Dtype.obj, [some (Value.s "a"), some (Value.s "a")]⟩]
    [⟨"price", Method.meanNormal, some (Value.q 1)⟩,
     ⟨"city", Method.mode, some (Value.s "a")⟩]
    (by decide) (by decide) _ (List.mem_cons_self _ _),
   c8_row_count 2 tblSmall
    [⟨"price", Dtype.num, [some (Value.q 1), some (Value.q 1)]⟩,
     ⟨"city", Dtype.obj, [some (Value.s "a"), some (Value.s "a")]⟩]
    [⟨"price", Method.meanNormal, some (Value.q 1)⟩,
     ⟨"city", Method.mode, some (Value.s "a")⟩]
    (by decide) (by decide) _ (List.mem_cons_of_mem _ (List.mem_cons_self _ _))⟩

end IDC

namespace IDC

attribute [local semireducible] Rat.add Rat.sub Rat.mul

/-! ### C4: monthly trend resampling -/

theorem minL_le (x : Int) (xs : List Int) :
    minL x xs ≤ x ∧ ∀ y ∈ xs, minL x xs ≤ y := by
  induction xs generalizing x with
  | nil =>
    refine ⟨le_refl x, ?_⟩
    intro y hy
    exact absurd hy (List.not_mem_nil y)
  | cons z zs ih =>
    have hm : minL x (z :: zs) = min z (minL x zs) := rfl
    constructor
    · rw [hm]
      exact (min_le_right _ _).trans (ih x).1
    · intro y hy
      rcases List.mem_cons.mp hy with h | h
      · rw [hm, h]
        exact min_le_left _ _
      · rw [hm]
        exact (min_le_right _ _).trans ((ih x).2 y h)

theorem le_maxL (x : Int) (xs : List Int) :
    x ≤ maxL x xs ∧ ∀ y ∈ xs, y ≤ maxL x xs := by
  induction xs generalizing x with
  | nil =>
    refine ⟨le_refl x, ?_⟩
    intro y hy
    exact absurd hy (List.not_mem_nil y)
  | cons z zs ih =>
    have hm : maxL x (z :: zs) = max z (maxL x zs) := rfl
    constructor
    · rw [hm]
      exact (ih x).1.trans (le_max_right _ _)
    · intro y hy
      rcases List.mem_cons.mp hy with h | h
      · rw [hm, h]
        exact le_max_left _ _
      · rw [hm]
        exact ((ih x).2 y h).trans (le_max_right _ _)

theorem mem_intRangeAux (a : Int) (n : Nat) (m : Int) :
    m ∈ intRangeAux a n ↔ a ≤ m ∧ m < a + n := by
  induction n generalizing a with
  | zero =>
    simp only [intRangeAux, List.not_mem_nil, false_iff]
    omega
  | succ k ih =>
    simp only [intRangeAux, List.mem_cons, ih]
    omega

theorem mem_intRange (a b m : Int) : m ∈ intRange a b ↔ a ≤ m ∧ m ≤ b := by
  unfold intRange
  rw [mem_intRangeAux]
  omega

theorem chain'_intRangeAux (a : Int) (n : Nat) :
    List.Chain' (· < ·) (intRangeAux a n) := by
  induction n generalizing a with
  | zero => simp [intRangeAux]
  | succ k ih =>
    rw [intRangeAux, List.chain'_cons']
    refine ⟨?_, ih (a + 1)⟩
    intro y hy
    cases k with
    | zero => simp [intRangeAux] at hy
    | succ k2 =>
      rw [intRangeAux, List.head?_cons, Option.mem_def] at hy
      injection hy with hy
      omega

theorem chain'_intRange (a b : Int) : List.Chain' (· < ·) (intRange a b) :=
  chain'_intRangeAux a _

/-- Every dated row's month lies between the earliest and latest month. -/
theorem rows_bounds (rows : List (Int × Option ℚ)) :
    ∀ r ∈ rows, monthsLo rows ≤ r.1 ∧ r.1 ≤ monthsHi rows := by
  intro r hr
  cases rows with
  | nil => exact absurd hr (List.not_mem_nil r)
  | cons r0 rs =>
    unfold monthsLo monthsHi
    rcases List.mem_cons.mp hr with h | h
    · rw [h]
      exact ⟨(minL_le r0.1 _).1, (le_maxL r0.1 _).1⟩
    · have hmem : r.1 ∈ rs.map Prod.fst := List.mem_map.mpr ⟨r, h, rfl⟩
      exact ⟨(minL_le r0.1 _).2 _ hmem, (le_maxL r0.1 _).2 _ hmem⟩

/-- A month bucket with no rows sums to zero. -/
theorem monthTotal_zero (rows : List (Int × Option ℚ)) (m : Int)
    (h : rows.countP (fun r => r.1 = m) = 0) : monthTotalR rows m = 0 := by
  unfold monthTotalR
  have hf : rows.filter (fun r => decide (r.1 = m)) = [] := by
    rw [List.filter_eq_nil_iff]
    intro r hr
    simpa using List.countP_eq_zero.mp h r hr
  rw [hf]
  rfl

/-- C4 (amended): with time and revenue roles set and at least one dated
row, the trend series is exactly one `(month, total)` pair for every
calendar month from the earliest to the latest dated row, ascending by
month; months containing zero rows are not omitted — they appear
zero-filled. -/
theorem c4_amended (t : Table) (dc sc : Col) (hd : dateFirst t = some dc)
    (hs : salesFind t = some sc)
    (hne : mRows (dateKeys dc) (trendVals sc) ≠ []) :
    ∃ l, trendView t = some l ∧
      List.Chain' (fun p q : Int × ℚ => p.1 < q.1) l ∧
      (∀ p ∈ l, p.2 = monthTotalR (mRows (dateKeys dc) (trendVals sc)) p.1) ∧
      (∀ m : Int, ((m, monthTotalR (mRows (dateKeys dc) (trendVals sc)) m) ∈ l ↔
        monthsLo (mRows (dateKeys dc) (trendVals sc)) ≤ m ∧
        m ≤ monthsHi (mRows (dateKeys dc) (trendVals sc)))) ∧
      (∀ r ∈ mRows (dateKeys dc) (trendVals sc),
        monthsLo (mRows (dateKeys dc) (trendVals sc)) ≤ r.1 ∧
        r.1 ≤ monthsHi (mRows (dateKeys dc) (trendVals sc))) ∧
      (∀ m : Int, (mRows (dateKeys dc) (trendVals sc)).countP (fun r => r.1 = m) = 0 →
        monthTotalR (mRows (dateKeys dc) (trendVals sc)) m = 0) := by
  have hres : resampleM (dateKeys dc) (trendVals sc) =
      (intRange (monthsLo (mRows (dateKeys dc) (trendVals sc)))
        (monthsHi (mRows (dateKeys dc) (trendVals sc)))).map
        (fun m => (m, monthTotalR (mRows (dateKeys dc) (trendVals sc)) m)) := by
    unfold resampleM
    rw [if_neg hne]
  refine ⟨resampleM (dateKeys dc) (trendVals sc), ?_, ?_, ?_, ?_, ?_, ?_⟩
  · unfold trendView
    rw [hd, hs]
  · rw [hres, List.chain'_map]
    exact chain'_intRange _ _
  · rw [hres]
    intro p hp
    obtain ⟨m, hm, rfl⟩ := List.mem_map.mp hp
    rfl
  · intro m
    rw [hres]
    constructor
    · intro hmem
      obtain ⟨m', hm', he⟩ := List.mem_map.mp hmem
      have hmm : m' = m := congrArg Prod.fst he
      subst hmm
      exact (mem_intRange _ _ _).mp hm'
    · intro hb
      exact List.mem_map.mpr ⟨m, (mem_intRange _ _ _).mpr hb, rfl⟩
  · exact rows_bounds _
  · intro m hm
    exact monthTotal_zero _ m hm

/-- Witness for C4 at the two-row table with a one-month gap. -/
theorem c4_amended_witness :
    ∃ l, trendView tblGap = some l ∧
      List.Chain' (fun p q : Int × ℚ => p.1 < q.1) l ∧
      (∀ p ∈ l, p.2 = monthTotalR (mRows
        (dateKeys ⟨"order_date", Dtype.dt, [some (Value.d 752560), some (Value.d 752618)]⟩)
        (trendVals ⟨"sales", Dtype.num, [some (Value.q 100), some (Value.q 200)]⟩)) p.1) ∧
      (∀ m : Int, ((m, monthTotalR (mRows
        (dateKeys ⟨"order_date", Dtype.dt, [some (Value.d 752560), some (Value.d 752618)]⟩)
        (trendVals ⟨"sales", Dtype.num, [some (Value.q 100), some (Value.q 200)]⟩)) m) ∈ l ↔
        monthsLo (mRows
          (dateKeys ⟨"order_date", Dtype.dt, [some (Value.d 752560), some (Value.d 752618)]⟩)
          (trendVals ⟨"sales", Dtype.num, [some (Value.q 100), some (Value.q 200)]⟩)) ≤ m ∧
        m ≤ monthsHi (mRows
          (dateKeys ⟨"order_date", Dtype.dt, [some (Value.d 752560), some (Value.d 752618)]⟩)
          (trendVals ⟨"sales", Dtype.num, [some (Value.q 100), some (Value.q 200)]⟩)))) ∧
      (∀ r ∈ mRows
        (dateKeys ⟨"order_date", Dtype.dt, [some (Value.d 752560), some (Value.d 752618)]⟩)
        (trendVals ⟨"sales", Dtype.num, [some (Value.q 100), some (Value.q 200)]⟩),
        monthsLo (mRows
          (dateKeys ⟨"order_date", Dtype.dt, [some (Value.d 752560), some (Value.d 752618)]⟩)
          (trendVals ⟨"sales", Dtype.num, [some (Value.q 100), some (Value.q 200)]⟩)) ≤ r.1 ∧
        r.1 ≤ monthsHi (mRows
          (dateKeys ⟨"order_date", Dtype.dt, [some (Value.d 752560), some (Value.d 752618)]⟩)
          (trendVals ⟨"sales", Dtype.num, [some (Value.q 100), some (Value.q 200)]⟩))) ∧
      (∀ m : Int, (mRows
        (dateKeys ⟨"order_date", Dtype.dt, [some (Value.d 752560), some (Value.d 752618)]⟩)
        (trendVals ⟨"sales", Dtype.num, [some (Value.q 100), some (Value.q 200)]⟩)).countP
          (fun r => r.1 = m) = 0 →
        monthTotalR (mRows
          (dateKeys ⟨"order_date", Dtype.dt, [some (Value.d 752560), some (Value.d 752618)]⟩)
          (trendVals ⟨"sales", Dtype.num, [some (Value.q 100), some (Value.q 200)]⟩)) m = 0) :=
  c4_amended tblGap
    ⟨"order_date", Dtype.dt, [some (Value.d 752560), some (Value.d 752618)]⟩
    ⟨"sales", Dtype.num, [some (Value.q 100), some (Value.q 200)]⟩
    (by decide) (by decide) (by decide)

end IDC

namespace IDC

attribute [local semireducible] Rat.add Rat.sub Rat.mul

/-! ### C1: the post-clean null invariant -/

theorem wf_num_present (c : Col) (hwfc : c.cells.all (cellOk c.dtype) = true)
    (hnum : c.dtype = Dtype.num) (hp : hasPresent c = true) : qVals c ≠ [] := by
  obtain ⟨o, ho, hoSome⟩ := List.any_eq_true.mp hp
  cases o with
  | none => simp at hoSome
  | some v =>
    have hok := List.all_eq_true.mp hwfc _ ho
    rw [hnum] at hok
    cases v with
    | q x =>
      exact List.ne_nil_of_mem (List.mem_filterMap.mpr ⟨some (Value.q x), ho, rfl⟩)
    | s y => simp [cellOk] at hok
    | d y => simp [cellOk] at hok

theorem medianQ_some (xs : List ℚ) (h : xs ≠ []) : ∃ v, medianQ xs = some v := by
  have hlen : ¬ (sortedQ xs).length = 0 := by
    rw [sortedQ, List.length_insertionSort]
    intro h0
    exact h (List.eq_nil_of_length_eq_zero h0)
  unfold medianQ
  rw [if_neg hlen]
  by_cases hpar : (sortedQ xs).length % 2 = 1
  · rw [if_pos hpar]
    exact ⟨_, rfl⟩
  · rw [if_neg hpar]
    exact ⟨_, rfl⟩

theorem meanQ_some (xs : List ℚ) (h : xs ≠ []) : meanQ xs = some (meanOf xs) := by
  unfold meanQ
  rw [if_neg h]

/-- A numeric column is fully filled by the numeric loop whenever it has at
least one present value. -/
theorem numClean_fst_null (c : Col) (hwfc : c.cells.all (cellOk c.dtype) = true)
    (hnum : c.dtype = Dtype.num) (hp : hasPresent (numClean c).1 = true) :
    nullCount (numClean c).1 = 0 := by
  by_cases h0 : 0 < nullCount c
  · rcases hxs : qVals c with _ | ⟨x, xs'⟩
    · have hb : skewGtOneB (qVals c) = false := by
        rw [hxs]
        exact skewGtOneB_short [] (by simp)
      have hres : (numClean c).1 = c := by
        unfold numClean
        rw [if_pos h0, hb]
        simp [meanQ, hxs, fillCol_none]
      rw [hres] at hp ⊢
      exact absurd hxs (wf_num_present c hwfc hnum hp)
    · have hxne : qVals c ≠ [] := by rw [hxs]; simp
      by_cases hsk : skewGtOneB (qVals c) = true
      · obtain ⟨v, hv⟩ := medianQ_some (qVals c) hxne
        have hres : (numClean c).1 = fillCol c (some (Value.q v)) := by
          unfold numClean
          rw [if_pos h0, hsk]
          simp [hv]
        rw [hres]
        exact nullCount_fillCol_some c _
      · have hres : (numClean c).1 = fillCol c (some (Value.q (meanOf (qVals c)))) := by
          unfold numClean
          rw [if_pos h0]
          simp [hsk, meanQ_some (qVals c) hxne]
        rw [hres]
        exact nullCount_fillCol_some c _
  · have hres : (numClean c).1 = c := by
      unfold numClean
      rw [if_neg h0]
    rw [hres]
    omega

/-- C1 (amended): after a successful cleaning pass, every categorical
(object-dtype) column and every numeric column holding at least one present
value has zero missing cells; the claim fails only for an all-missing
numeric column (whose NaN mean fills nothing) and for the name-detected
temporal column, which the spec classifies temporal rather than
numeric/categorical. -/
theorem c1_amended (n : Nat) (t t' : Table) (la : List Action)
    (hwf : Wf n t = true) (h : cleanTable t = some (t', la)) :
    ∀ c' ∈ t', isDateName c'.name = false →
      (c'.dtype = Dtype.num → hasPresent c' = true → nullCount c' = 0) ∧
      (c'.dtype = Dtype.obj → nullCount c' = 0) := by
  have hlen := wf_lengths n t hwf
  have hok := wf_cells n t hwf
  have hlen1 : ∀ c1 ∈ (numPass t).1, c1.cells.length = n := by
    intro c1 hc1
    obtain ⟨c, hc, rfl⟩ := List.mem_map.mp hc1
    rw [numStep_fst_length]
    exact hlen c hc
  unfold cleanTable at h
  cases hcat : catPass (numPass t).1 with
  | none =>
    rw [hcat] at h
    exact absurd h (by simp)
  | some r =>
    rw [hcat] at h
    injection h with h
    injection h with h1 h2
    have hlen2 : ∀ c2 ∈ r.1, c2.cells.length = n := by
      intro c2 hc2
      obtain ⟨c1, hc1, a, ha⟩ := catPass_mem _ r.1 r.2 (by rw [hcat]) c2 hc2
      rw [catStep_length c1 c2 a ha]
      exact hlen1 c1 hc1
    have hP : ∀ c2 ∈ r.1,
        (c2.dtype = Dtype.num → hasPresent c2 = true → nullCount c2 = 0) ∧
        (c2.dtype = Dtype.obj → nullCount c2 = 0) := by
      intro c2 hc2
      obtain ⟨c1, hc1, a, ha⟩ := catPass_mem _ r.1 r.2 (by rw [hcat]) c2 hc2
      obtain ⟨c, hc, hceq⟩ := List.mem_map.mp hc1
      have hd1 : c1.dtype = c.dtype := by
        rw [← hceq]
        exact numStep_fst_dtype c
      obtain ⟨v2, hv2⟩ := catStep_shape c1 c2 a ha
      have hd2 : c2.dtype = c1.dtype := by rw [hv2]; rfl
      constructor
      · intro hnum hp
        have hnum1 : c1.dtype = Dtype.num := hd2.symm.trans hnum
        have hid : catStep c1 = some (c1, []) := by
          apply catStep_not_obj
          rw [hnum1]
          simp
        rw [hid] at ha
        injection ha with hpair
        injection hpair with hx hy
        rw [← hx] at hp ⊢
        rw [← hceq] at hp ⊢
        have hcd : c.dtype = Dtype.num := hd1.symm.trans hnum1
        have hstep : numStep c = numClean c := by
          unfold numStep
          rw [if_pos hcd]
        rw [hstep] at hp ⊢
        exact numClean_fst_null c (hok c hc) hcd hp
      · intro hobj
        exact catStep_null c1 c2 a (hd2.symm.trans hobj) ha
    rw [← h1]
    intro c' hc' hdate
    unfold datePass at hc'
    cases hdf : dateFirst r.1 with
    | none =>
      rw [hdf] at hc'
      exact hP c' hc' 
    | some c0 =>
      rw [hdf] at hc'
      obtain ⟨cm, hcm, hceq'⟩ := List.mem_map.mp hc'
      obtain ⟨c2, hc2, hcmeq⟩ := List.mem_map.mp hcm
      have hc0 : c0 ∈ r.1 := List.mem_of_find?_eq_some hdf
      have hc0name : isDateName c0.name = true := by
        have h' : List.find? (fun c => isDateName c.name) r.1 = some c0 := hdf
        have h2 := List.find?_some h'
        exact h2
      have hname : c'.name = cm.name := by rw [← hceq']
      have hcm2 : cm = c2 := by
        by_cases he : c2.name = c0.name
        · rw [if_pos he] at hcmeq
          have hn2 : c'.name = c2.name := by
            rw [hname, ← hcmeq]
            rfl
          rw [hn2, he] at hdate
          rw [hc0name] at hdate
          exact absurd hdate (by simp)
        · rw [if_neg he] at hcmeq
          exact hcmeq.symm
      have hkeys : (dateKeys (convertDate c0)).length = c0.cells.length := by
        unfold dateKeys convertDate
        rw [List.length_map, List.length_map]
      have hperm : List.Perm c'.cells c2.cells := by
        rw [← hceq', hcm2]
        exact applySort_cells_perm (dateKeys (convertDate c0)) c2
          (by rw [hkeys, hlen2 c0 hc0, hlen2 c2 hc2])
      have hdty : c'.dtype = c2.dtype := by
        rw [← hceq', hcm2]
      have hnull_eq : nullCount c' = nullCount c2 := hperm.countP_eq _
      have hpres : hasPresent c' = true → hasPresent c2 = true := by
        intro hp
        obtain ⟨o, ho, hos⟩ := List.any_eq_true.mp hp
        exact List.any_eq_true.mpr ⟨o, hperm.mem_iff.mp ho, hos⟩
      obtain ⟨hPnum, hPobj⟩ := hP c2 hc2
      constructor
      · intro hnum hp
        rw [hnull_eq]
        exact hPnum (hdty.symm.trans hnum) (hpres hp)
      · intro hobj
        rw [hnull_eq]
        exact hPobj (hdty.symm.trans hobj)

/-- Witness for C1 at a two-column table with one missing cell per column. -/
theorem c1_amended_witness :
    (isDateName (⟨"price", Dtype.num,
        [some (Value.q 1), some (Value.q 1)]⟩ : Col).name = false →
      ((⟨"price", Dtype.num, [some (Value.q 1), some (Value.q 1)]⟩ : Col).dtype = Dtype.num →
        hasPresent ⟨"price", Dtype.num, [some (Value.q 1), some (Value.q 1)]⟩ = true →
        nullCount ⟨"price", Dtype.num, [some (Value.q 1), some (Value.q 1)]⟩ = 0) ∧
      ((⟨"price", Dtype.num, [some (Value.q 1), some (Value.q 1)]⟩ : Col).dtype = Dtype.obj →
        nullCount ⟨"price", Dtype.num, [some (Value.q 1), some (Value.q 1)]⟩ = 0)) ∧
    (isDateName (⟨"city", Dtype.obj,
        [some (Value.s "a"), some (Value.s "a")]⟩ : Col).name = false →
      ((⟨"city", Dtype.obj, [some (Value.s "a"), some (Value.s "a")]⟩ : Col).dtype = Dtype.num →
        hasPresent ⟨"city", Dtype.obj, [some (Value.s "a"), some (Value.s "a")]⟩ = true →
        nullCount ⟨"city", Dtype.obj, [some (Value.s "a"), some (Value.s "a")]⟩ = 0) ∧
      ((⟨"city", Dtype.obj, [some (Value.s "a"), some (Value.s "a")]⟩ : Col).dtype = Dtype.obj →
        nullCount ⟨"city", Dtype.obj, [some (Value.s "a"), some (Value.s "a")]⟩ = 0)) :=
  ⟨c1_amended 2 tblSmall
    [⟨"price", Dtype.num, [some (Value.q 1), some (Value.q 1)]⟩,
     ⟨"city", Dtype.obj, [some (Value.s "a"), some (Value.s "a")]⟩]
    [⟨"price", Method.meanNormal, some (Value.q 1)⟩,
     ⟨"city", Method.mode, some (Value.s "a")⟩]
    (by decide) (by decide) _ (List.mem_cons_self _ _),
   c1_amended 2 tblSmall
    [⟨"price", Dtype.num, [some (Value.q 1), some (Value.q 1)]⟩,
     ⟨"city", Dtype.obj, [some (Value.s "a"), some (Value.s "a")]⟩]
    [⟨"price", Method.meanNormal, some (Value.q 1)⟩,
     ⟨"city", Method.mode, some (Value.s "a")⟩]
    (by decide) (by decide) _ (List.mem_cons_of_mem _ (List.mem_cons_self _ _))⟩

end IDC

namespace IDC

attribute [local semireducible] Rat.add Rat.sub Rat.mul

/-! ### C5: the strict skewness threshold -/

theorem sumQ_nonneg (l : List ℚ) (h : ∀ x ∈ l, 0 ≤ x) : 0 ≤ sumQ l := by
  induction l with
  | nil => exact le_refl 0
  | cons x xs ih =>
    have hx : sumQ (x :: xs) = x + sumQ xs := rfl
    rw [hx]
    exact add_nonneg (h x (List.mem_cons_self x xs))
      (ih fun y hy => h y (List.mem_cons_of_mem _ hy))

theorem m2Q_nonneg (xs : List ℚ) : 0 ≤ m2Q xs := by
  apply sumQ_nonneg
  intro y hy
  obtain ⟨x, _, rfl⟩ := List.mem_map.mp hy
  exact sq_nonneg _

/-- The exact-arithmetic branch condition coincides with "the sample
skewness strictly exceeds 1". -/
theorem skewGtOneB_iff (xs : List ℚ) : skewGtOneB xs = true ↔ SkewGtOne xs := by
  unfold skewGtOneB SkewGtOne
  by_cases hlen : xs.length < 3
  · rw [if_pos hlen]
    simp only [Bool.false_eq_true, false_iff]
    rintro ⟨h1, _, _⟩
    omega
  · rw [if_neg hlen]
    by_cases hm2 : m2Q xs = 0
    · rw [if_pos hm2]
      simp only [Bool.false_eq_true, false_iff]
      rintro ⟨_, h2, _⟩
      exact h2 hm2
    · rw [if_neg hm2, decide_eq_true_eq]
      have hlen' : 2 < xs.length := by omega
      have hm2pos : 0 < m2Q xs := lt_of_le_of_ne (m2Q_nonneg xs) (Ne.symm hm2)
      have hN3 : (3 : ℝ) ≤ (xs.length : ℝ) := by exact_mod_cast hlen'
      have hNpos : (0 : ℝ) < (xs.length : ℝ) := by linarith
      have hN2 : (0 : ℝ) < (xs.length : ℝ) - 2 := by linarith
      have hM2pos : (0 : ℝ) < ((m2Q xs : ℚ) : ℝ) := by exact_mod_cast hm2pos
      have hsqrt : (0 : ℝ) < Real.sqrt (((m2Q xs : ℚ) : ℝ) ^ 3) :=
        Real.sqrt_pos.mpr (by positivity)
      have hD : (0 : ℝ) < ((xs.length : ℝ) - 2) * Real.sqrt (((m2Q xs : ℚ) : ℝ) ^ 3) :=
        mul_pos hN2 hsqrt
      have hDeq : ((xs.length : ℝ) - 2) * Real.sqrt (((m2Q xs : ℚ) : ℝ) ^ 3) =
          Real.sqrt ((((xs.length : ℝ) - 2)) ^ 2 * ((m2Q xs : ℚ) : ℝ) ^ 3) := by
        rw [Real.sqrt_mul (sq_nonneg _) _, Real.sqrt_sq (le_of_lt hN2)]
      have hsqN1 : (0 : ℝ) ≤ (xs.length : ℝ) - 1 := by linarith
      constructor
      · rintro ⟨hm3, hr⟩
        refine ⟨hlen', hm2, ?_⟩
        rw [one_lt_div hD]
        have hM3pos : (0 : ℝ) < ((m3Q xs : ℚ) : ℝ) := by exact_mod_cast hm3
        have hA : (xs.length : ℝ) * Real.sqrt ((xs.length : ℝ) - 1) * ((m3Q xs : ℚ) : ℝ) =
            Real.sqrt ((xs.length : ℝ) ^ 2 * ((xs.length : ℝ) - 1) * ((m3Q xs : ℚ) : ℝ) ^ 2) := by
          rw [show (xs.length : ℝ) ^ 2 * ((xs.length : ℝ) - 1) * ((m3Q xs : ℚ) : ℝ) ^ 2 =
              ((xs.length : ℝ) * ((m3Q xs : ℚ) : ℝ)) ^ 2 * ((xs.length : ℝ) - 1) by ring]
          rw [Real.sqrt_mul (sq_nonneg _) _,
            Real.sqrt_sq (le_of_lt (mul_pos hNpos hM3pos))]
          ring
        rw [hA, hDeq]
        apply Real.sqrt_lt_sqrt (by positivity)
        exact_mod_cast hr
      · rintro ⟨_, _, hgt⟩
        have hDA := (one_lt_div hD).mp hgt
        have hApos : (0 : ℝ) <
            (xs.length : ℝ) * Real.sqrt ((xs.length : ℝ) - 1) * ((m3Q xs : ℚ) : ℝ) :=
          lt_trans hD hDA
        have hsq1 : (0 : ℝ) < Real.sqrt ((xs.length : ℝ) - 1) :=
          Real.sqrt_pos.mpr (by linarith)
        have hM3pos : (0 : ℝ) < ((m3Q xs : ℚ) : ℝ) := by
          by_contra hneg
          push_neg at hneg
          nlinarith [mul_pos hNpos hsq1]
        have hm3 : 0 < m3Q xs := by exact_mod_cast hM3pos
        refine ⟨hm3, ?_⟩
        have hA : (xs.length : ℝ) * Real.sqrt ((xs.length : ℝ) - 1) * ((m3Q xs : ℚ) : ℝ) =
            Real.sqrt ((xs.length : ℝ) ^ 2 * ((xs.length : ℝ) - 1) * ((m3Q xs : ℚ) : ℝ) ^ 2) := by
          rw [show (xs.length : ℝ) ^ 2 * ((xs.length : ℝ) - 1) * ((m3Q xs : ℚ) : ℝ) ^ 2 =
              ((xs.length : ℝ) * ((m3Q xs : ℚ) : ℝ)) ^ 2 * ((xs.length : ℝ) - 1) by ring]
          rw [Real.sqrt_mul (sq_nonneg _) _,
            Real.sqrt_sq (le_of_lt (mul_pos hNpos hM3pos))]
          ring
        rw [hA, hDeq] at hDA
        have hlt := (Real.sqrt_lt_sqrt_iff (by positivity)).mp hDA
        exact_mod_cast hlt

/-- C5: a numeric column with missing cells is imputed by a strict
comparison of the sample skewness against the fixed threshold 1: skewness
strictly above 1 fills with the median (method median-skew), otherwise —
including when the skewness is exactly 1 — with the mean (method
mean-normal). -/
theorem c5_skew_threshold (c : Col) (hnum : c.dtype = Dtype.num)
    (hnull : 0 < nullCount c) :
    (SkewGtOne (qVals c) →
      numStep c = (fillCol c ((medianQ (qVals c)).map Value.q),
        [⟨c.name, Method.medianSkew, (medianQ (qVals c)).map Value.q⟩])) ∧
    (¬ SkewGtOne (qVals c) →
      numStep c = (fillCol c ((meanQ (qVals c)).map Value.q),
        [⟨c.name, Method.meanNormal, (meanQ (qVals c)).map Value.q⟩])) ∧
    (SkewEqOne (qVals c) → ¬ SkewGtOne (qVals c)) := by
  refine ⟨?_, ?_, ?_⟩
  · intro hS
    have hb : skewGtOneB (qVals c) = true := (skewGtOneB_iff _).mpr hS
    unfold numStep numClean
    rw [if_pos hnum, if_pos hnull, hb]
    simp
  · intro hS
    have hb : skewGtOneB (qVals c) = false := by
      cases hcase : skewGtOneB (qVals c) with
      | false => rfl
      | true => exact absurd ((skewGtOneB_iff _).mp hcase) hS
    unfold numStep numClean
    rw [if_pos hnum, if_pos hnull, hb]
    simp
  · rintro ⟨h1, h2, h3⟩ ⟨g1, g2, g3⟩
    rw [h3] at g3
    exact lt_irrefl 1 g3

/-- Witness for C5 at a right-skewed column `[0, 0, 0, 10, missing]`
(sample skewness 2). -/
theorem c5_skew_threshold_witness :
    (SkewGtOne (qVals ⟨"price", Dtype.num,
        [some (Value.q 0), some (Value.q 0), some (Value.q 0), some (Value.q 10), none]⟩) →
      numStep ⟨"price", Dtype.num,
        [some (Value.q 0), some (Value.q 0), some (Value.q 0), some (Value.q 10), none]⟩ =
      (fillCol ⟨"price", Dtype.num,
        [some (Value.q 0), some (Value.q 0), some (Value.q 0), some (Value.q 10), none]⟩
        ((medianQ (qVals ⟨"price", Dtype.num,
          [some (Value.q 0), some (Value.q 0), some (Value.q 0), some (Value.q 10), none]⟩)).map Value.q),
       [⟨"price", Method.medianSkew, (medianQ (qVals ⟨"price", Dtype.num,
          [some (Value.q 0), some (Value.q 0), some (Value.q 0), some (Value.q 10), none]⟩)).map Value.q⟩])) ∧
    (¬ SkewGtOne (qVals ⟨"price", Dtype.num,
        [some (Value.q 0), some (Value.q 0), some (Value.q 0), some (Value.q 10), none]⟩) →
      numStep ⟨"price", Dtype.num,
        [some (Value.q 0), some (Value.q 0), some (Value.q 0), some (Value.q 10), none]⟩ =
      (fillCol ⟨"price", Dtype.num,
        [some (Value.q 0), some (Value.q 0), some (Value.q 0), some (Value.q 10), none]⟩
        ((meanQ (qVals ⟨"price", Dtype.num,
          [some (Value.q 0), some (Value.q 0), some (Value.q 0), some (Value.q 10), none]⟩)).map Value.q),
       [⟨"price", Method.meanNormal, (meanQ (qVals ⟨"price", Dtype.num,
          [some (Value.q 0), some (Value.q 0), some (Value.q 0), some (Value.q 10), none]⟩)).map Value.q⟩])) ∧
    (SkewEqOne (qVals ⟨"price", Dtype.num,
        [some (Value.q 0), some (Value.q 0), some (Value.q 0), some (Value.q 10), none]⟩) →
      ¬ SkewGtOne (qVals ⟨"price", Dtype.num,
        [some (Value.q 0), some (Value.q 0), some (Value.q 0), some (Value.q 10), none]⟩)) :=
  c5_skew_threshold
    ⟨"price", Dtype.num,
      [some (Value.q 0), some (Value.q 0), some (Value.q 0), some (Value.q 10), none]⟩
    rfl (by decide)

end IDC
